import Mathlib

/-!
# Verification of the universal_pathlib path-representation core

A shallow embedding of the path representation and protocol-resolution
engine of `universal_pathlib` (`upath`).  The repository copy at hand
ships the documentation (`docs/`, `migration.md`, `README.md`), the type
stubs (`upath/implementations/local.pyi`) and the notebooks, but not the
Python modules `upath/core.py` / `upath/_flavour.py` that implement the
engine; every definition below that embeds such a missing module is
therefore modelled from the specification and carries a doc comment
starting with `Modelled from the spec:`.

Addresses are modelled as lists of characters; sub-paths are split on the
separator `/` into non-empty segments, mirroring the URL-like flavour the
spec describes for remote backends and the POSIX-like flavour for local
paths.
-/

namespace UPathModel

/-- Modelled from the spec: ParsedComponents segment splitting
(missing `upath/_flavour.py`).  Accumulator-based splitting of a raw
character list at `/`; the accumulator holds the current segment
reversed. -/
def splitCharsAux (cur : List Char) : List Char → List (List Char)
  | [] => [cur.reverse]
  | c :: cs =>
    if c = '/' then cur.reverse :: splitCharsAux [] cs
    else splitCharsAux (c :: cur) cs

/-- Split a raw character list at every `/`. -/
def splitChars (l : List Char) : List (List Char) :=
  splitCharsAux [] l

/-- Modelled from the spec: "a leading/trailing separator does not produce
empty segments" — the normalized segments drop every empty piece. -/
def segmentsOfChars (l : List Char) : List (List Char) :=
  (splitChars l).filter (fun s => !s.isEmpty)

/-- Modelled from the spec: `join(components)` re-joins segments with the
separator. -/
def joinSegs : List (List Char) → List Char
  | [] => []
  | [s] => s
  | s :: t :: rest => s ++ '/' :: joinSegs (t :: rest)

/-- Whether a raw address (after any scheme) starts with the separator,
i.e. carries a root marker. -/
def startsWithSep (l : List Char) : Bool :=
  match l with
  | [] => false
  | c :: _ => c = '/'

/-- Modelled from the spec: `parse(address)` at the sub-path level — the
ParsedComponents of a raw address: its root marker and its normalized
segments. -/
def parseComps (l : List Char) : Bool × List (List Char) :=
  (startsWithSep l, segmentsOfChars l)

/-- Modelled from the spec: `join(components)` — the address rendered
from a root marker and segments. -/
def joinComps (c : Bool × List (List Char)) : List Char :=
  (if c.1 then ['/'] else []) ++ joinSegs c.2

/-- Modelled from the spec: URI scheme extraction for protocol
resolution (§4.2): chars before a `://` form the scheme; the scan never
crosses a `/`, and a `:` not followed by `//` yields no scheme. -/
def schemeTail : List Char → Option (List Char)
  | c1 :: c2 :: rest => if c1 = '/' ∧ c2 = '/' then some rest else none
  | _ => none

/-- Modelled from the spec: the scan for `scheme://`, one character at a
time; it never crosses a `/`, and a `:` not followed by `//` yields no
scheme. -/
def schemeSplit : List Char → Option (List Char × List Char)
  | [] => none
  | c :: cs =>
    if c = ':' then (schemeTail cs).map (fun r => ([], r))
    else if c = '/' then none
    else (schemeSplit cs).map (fun p => (c :: p.1, p.2))

/-- Scheme extraction, rejecting an empty scheme. -/
def schemeOf (l : List Char) : Option (List Char × List Char) :=
  match schemeSplit l with
  | some (sch, rest) => if sch = [] then none else some (sch, rest)
  | none => none

/-- Modelled from the spec: StorageOptions are an ordered mapping of
string keys to values; we model values as strings. -/
abbrev StorageOptions := List (String × String)

/-- First-match lookup in a storage-options mapping. -/
def lookupOpt (k : String) : StorageOptions → Option String
  | [] => none
  | (k', v) :: rest => if k' = k then some v else lookupOpt k rest

/-- Boolean lexicographic order on character lists, used to canonicalize
option order. -/
def charsLe : List Char → List Char → Bool
  | [], _ => true
  | _ :: _, [] => false
  | a :: as, b :: bs =>
    if a = b then charsLe as bs
    else decide (a < b)

/-- Insert one key/value pair into a key-sorted options list. -/
def insertKV (p : String × String) : StorageOptions → StorageOptions
  | [] => [p]
  | q :: rest =>
    if charsLe p.1.data q.1.data then p :: q :: rest
    else q :: insertKV p rest

/-- Modelled from the spec: canonicalized storage options — the mapping
sorted by key, so that comparison matches Python's order-insensitive
dict equality. -/
def canonOpts (opts : StorageOptions) : StorageOptions :=
  opts.foldr insertKV []

/-- Option lookup through the canonical form, so that canonically equal
option mappings are indistinguishable to every consumer. -/
def optGet (k : String) (opts : StorageOptions) : Option String :=
  lookupOpt k (canonOpts opts)

/-- Strip trailing separators from an endpoint URL. -/
def stripTrailingSlash (s : String) : String :=
  String.mk ((s.data.reverse.dropWhile (fun c => c = '/')).reverse)

/-- Modelled from the spec: endpoint normalization for S3-like stores —
trailing-slash-insensitive endpoint URLs, with the AWS default endpoint
when none is configured. -/
def s3Endpoint (opts : StorageOptions) : String :=
  stripTrailingSlash ((optGet "endpoint_url" opts).getD "https://s3.amazonaws.com")

/-- Modelled from the spec: the Filesystem Identity Resolver
(missing `upath/core.py`, `UPath.fsid`), reproducing the identity table
of §6: constant `"local"` for local filesystems, constant `"http"` for
HTTP(S), the normalized endpoint URL for S3-like stores, the constant
`"gcs"` for the single-global-endpoint GCS store, the account identifier
for account-scoped Azure stores, host plus port for host-addressed
remotes (SFTP/SSH/SMB), and undefined for unknown protocols. -/
def fsidOf (protocol : String) (opts : StorageOptions) : Option String :=
  if protocol = "file" ∨ protocol = "local" then some "local"
  else if protocol = "http" ∨ protocol = "https" then some "http"
  else if protocol = "s3" ∨ protocol = "s3a" then some (s3Endpoint opts)
  else if protocol = "gs" ∨ protocol = "gcs" then some "gcs"
  else if protocol = "az" ∨ protocol = "abfs" ∨ protocol = "abfss" ∨ protocol = "adl" then
    (optGet "account_name" opts).map (fun a => "az://" ++ a)
  else if protocol = "sftp" ∨ protocol = "ssh" then
    (optGet "host" opts).map (fun h => h ++ ":" ++ ((optGet "port" opts).getD "22"))
  else if protocol = "smb" then
    (optGet "host" opts).map (fun h => h ++ ":" ++ ((optGet "port" opts).getD "445"))
  else none

/-- The host operating-system family used for local-path dispatch. -/
inductive OSFamily
  | posix
  | windows
  deriving DecidableEq, Repr

/-- The concrete path class the constructor dispatches to, mirroring the
`UPath` subclasses documented in the class hierarchy. -/
inductive UPathClass
  | posixUPath
  | windowsUPath
  | filePath
  | s3Path
  | httpPath
  | memoryPath
  | genericUPath
  deriving DecidableEq, Repr

/-- Modelled from the spec: registry-driven class dispatch for a resolved
protocol name (missing `upath/registry.py`). -/
def clsForProtocol (protocol : String) : UPathClass :=
  if protocol = "file" ∨ protocol = "local" then .filePath
  else if protocol = "s3" ∨ protocol = "s3a" then .s3Path
  else if protocol = "http" ∨ protocol = "https" then .httpPath
  else if protocol = "memory" then .memoryPath
  else .genericUPath

/-- The platform-specific local path class. -/
def localCls : OSFamily → UPathClass
  | .posix => .posixUPath
  | .windows => .windowsUPath

/-- Modelled from the spec: the immutable PathValue — concrete class,
outermost protocol name, root marker and normalized segments of the
innermost sub-path, and the attached storage options. -/
structure PathValue where
  cls : UPathClass
  protocol : String
  hasRoot : Bool
  segs : List (List Char)
  opts : StorageOptions
  deriving DecidableEq, Repr

namespace PathValue

/-- The filesystem identity of a path value, from its protocol and
options. -/
def fsid (p : PathValue) : Option String :=
  fsidOf p.protocol p.opts

/-- The normalized sub-path of a path value, as root marker plus
segments. -/
def pathRepr (p : PathValue) : Bool × List (List Char) :=
  (p.hasRoot, p.segs)

/-- The characters of the normalized sub-path: root marker plus joined
segments. -/
def pathChars (p : PathValue) : List Char :=
  joinComps (p.hasRoot, p.segs)

/-- The normalized sub-path rendered as a string. -/
def pathString (p : PathValue) : String :=
  String.mk p.pathChars

/-- Modelled from the spec: the identity component of path comparison —
identity tokens compared when both are defined, falling back to
canonicalized storage-options comparison when either identity is
undefined. -/
def sameFs (p q : PathValue) : Bool :=
  match p.fsid, q.fsid with
  | some x, some y => x == y
  | some _, none => canonOpts p.opts == canonOpts q.opts
  | none, some _ => canonOpts p.opts == canonOpts q.opts
  | none, none => canonOpts p.opts == canonOpts q.opts

/-- Modelled from the spec: `UPath.__eq__` (missing `upath/core.py`):
same outermost protocol, same normalized sub-path, and the filesystem
identity comparison of `sameFs`. -/
def eq (p q : PathValue) : Bool :=
  p.protocol == q.protocol && p.hasRoot == q.hasRoot && p.segs == q.segs &&
    p.sameFs q

/-- Modelled from the spec: the hash key of `UPath.__hash__` — protocol
plus normalized sub-path plus identity token when defined, protocol plus
normalized sub-path plus canonicalized options otherwise. -/
def hashKey (p : PathValue) : String :=
  match p.fsid with
  | some t => p.protocol ++ "|" ++ pathString p ++ "|#" ++ t
  | none =>
    p.protocol ++ "|" ++ pathString p ++ "|?" ++
      String.join ((canonOpts p.opts).map (fun kv : String × String => kv.1 ++ "=" ++ kv.2 ++ ";"))

end PathValue

/-- The error conditions surfaced by the path engine (§7). -/
inductive UPathError
  | protocolMismatch
  | incompatibleFilesystems
  | notASubpath
  | typeErrorNotPathLike
  deriving DecidableEq, Repr

/-- Whether an engine result is a success. -/
def isOkE {α : Type} : Except UPathError α → Bool
  | .ok _ => true
  | .error _ => false

instance {ε α : Type} [DecidableEq ε] [DecidableEq α] : DecidableEq (Except ε α) := fun a b =>
  match a, b with
  | .ok x, .ok y =>
    if h : x = y then isTrue (h ▸ rfl) else isFalse (fun hc => h (Except.ok.inj hc))
  | .error x, .error y =>
    if h : x = y then isTrue (h ▸ rfl) else isFalse (fun hc => h (Except.error.inj hc))
  | .ok _, .error _ => isFalse (fun hc => Except.noConfusion hc)
  | .error _, .ok _ => isFalse (fun hc => Except.noConfusion hc)

/-- The index positions of `.` characters in a segment. -/
def dotIdxs (l : List Char) : List Nat :=
  (List.range l.length).filter (fun i => l.get? i = some '.')

/-- The position of the last `.` in a segment, if any. -/
def lastDot (l : List Char) : Option Nat :=
  (dotIdxs l).getLast?

/-- Modelled from the spec: the stem/suffix cut position of a final
segment — the last `.` that is not the first character; the segment
length (empty suffix) when no such dot exists. -/
def cutIdx (l : List Char) : Nat :=
  match lastDot l with
  | some i => if 0 < i then i else l.length
  | none => l.length

namespace PathValue

/-- The characters of the final segment (empty for a path with no
name). -/
def lastSegChars (p : PathValue) : List Char :=
  (p.segs.getLast?).getD []

/-- Modelled from the spec: `name` — the final segment. -/
def name (p : PathValue) : String :=
  String.mk p.lastSegChars

/-- Modelled from the spec: `stem` — the final segment up to the
stem/suffix cut. -/
def stem (p : PathValue) : String :=
  String.mk (p.lastSegChars.take (cutIdx p.lastSegChars))

/-- Modelled from the spec: `suffix` — the final segment from the
stem/suffix cut on. -/
def suffix (p : PathValue) : String :=
  String.mk (p.lastSegChars.drop (cutIdx p.lastSegChars))

/-- Modelled from the spec: `parent` — the path without its final
segment. -/
def parent (p : PathValue) : PathValue :=
  { p with segs := p.segs.dropLast }

/-- Modelled from the spec: `joinpath` / the `/` operator
(`UPath.joinuri`): a segment carrying a scheme for a different protocol
is rejected with `ProtocolMismatch`; a same-protocol URI replaces the
sub-path; a bare relative segment is appended. -/
def joinSegment (p : PathValue) (seg : String) : Except UPathError PathValue :=
  match schemeOf seg.data with
  | some (sch, rest) =>
    if String.mk sch = p.protocol then
      .ok { p with hasRoot := startsWithSep rest, segs := segmentsOfChars rest }
    else
      .error .protocolMismatch
  | none =>
    .ok { p with segs := p.segs ++ segmentsOfChars seg.data }

/-- Modelled from the spec: `relative_to` — requires the same protocol
and the same filesystem identity (per the `sameFs` comparison), then
strips the base's components as a prefix. -/
def relative_to (child base : PathValue) : Except UPathError String :=
  if child.protocol ≠ base.protocol then .error .protocolMismatch
  else if child.sameFs base = false then .error .incompatibleFilesystems
  else if child.hasRoot = base.hasRoot ∧ base.segs.isPrefixOf child.segs then
    .ok (String.mk (joinSegs (child.segs.drop base.segs.length)))
  else .error .notASubpath

/-- Modelled from the spec: `is_relative_to` — whether `relative_to`
succeeds. -/
def is_relative_to (child base : PathValue) : Bool :=
  isOkE (child.relative_to base)

end PathValue

/-- Modelled from the spec: which concrete classes implement the
`os.PathLike` protocol — only the local implementations `PosixUPath`,
`WindowsUPath` and `FilePath`. -/
def implementsOsPathLike : UPathClass → Bool
  | .posixUPath => true
  | .windowsUPath => true
  | .filePath => true
  | _ => false

/-- Modelled from the spec: `os.fspath` applied to a path value —
returns the plain path string for `os.PathLike` implementations and
raises `TypeError` for every other class. -/
def os_fspath (p : PathValue) : Except UPathError String :=
  if implementsOsPathLike p.cls then .ok p.pathString
  else .error .typeErrorNotPathLike

/-- Modelled from the spec: the constructor pipeline `UPath.__new__`
(missing `upath/core.py`): scheme-based protocol resolution, falling back
to the host OS's local path class for scheme-less addresses. -/
def fromUri (os : OSFamily) (address : String) (opts : StorageOptions) : PathValue :=
  match schemeOf address.data with
  | some (sch, rest) =>
    { cls := clsForProtocol (String.mk sch)
      protocol := String.mk sch
      hasRoot := startsWithSep rest
      segs := segmentsOfChars rest
      opts := opts }
  | none =>
    { cls := localCls os
      protocol := "file"
      hasRoot := startsWithSep address.data
      segs := segmentsOfChars address.data
      opts := opts }

/-- Modelled from the spec: canonical string serialization
(`UPath.__str__`): local stdlib-compatible classes render as a plain
path, every other class as `protocol://` plus the sub-path. -/
def toUriString (p : PathValue) : String :=
  match p.cls with
  | .posixUPath => p.pathString
  | .windowsUPath => p.pathString
  | .filePath => p.protocol ++ "://" ++ p.pathString
  | .s3Path => p.protocol ++ "://" ++ p.pathString
  | .httpPath => p.protocol ++ "://" ++ p.pathString
  | .memoryPath => p.protocol ++ "://" ++ p.pathString
  | .genericUPath => p.protocol ++ "://" ++ p.pathString

/-! ## Supporting lemmas: segment splitting and joining -/

theorem splitCharsAux_no_sep (l : List Char) :
    ∀ acc, '/' ∉ acc → ∀ s ∈ splitCharsAux acc l, '/' ∉ s := by
  induction l with
  | nil =>
    intro acc hacc s hs
    rw [splitCharsAux] at hs
    have heq : s = acc.reverse := List.mem_singleton.mp hs
    subst heq
    simpa using hacc
  | cons c cs ih =>
    intro acc hacc s hs
    rw [splitCharsAux] at hs
    by_cases hc : c = '/'
    · rw [if_pos hc] at hs
      rcases List.mem_cons.mp hs with heq | hmem
      · subst heq; simpa using hacc
      · exact ih [] (by simp) s hmem
    · rw [if_neg hc] at hs
      refine ih (c :: acc) ?_ s hs
      intro hmem
      rcases List.mem_cons.mp hmem with heq | hmem2
      · exact hc heq.symm
      · exact hacc hmem2

theorem segmentsOfChars_no_sep (l : List Char) :
    ∀ s ∈ segmentsOfChars l, s ≠ [] ∧ '/' ∉ s := by
  intro s hs
  unfold segmentsOfChars at hs
  have hmem := List.mem_filter.mp hs
  constructor
  · intro hnil
    subst hnil
    simpa using hmem.2
  · exact splitCharsAux_no_sep l [] (by simp) s hmem.1

theorem splitCharsAux_append (s : List Char) :
    '/' ∉ s → ∀ acc l, splitCharsAux acc (s ++ l) = splitCharsAux (s.reverse ++ acc) l := by
  induction s with
  | nil => intro _ acc l; simp
  | cons c cs ih =>
    intro h acc l
    have hc : ¬ c = '/' := fun hcc => h (by simp [hcc])
    have hcs : '/' ∉ cs := fun hmem => h (List.mem_cons_of_mem c hmem)
    rw [List.cons_append, splitCharsAux, if_neg hc, ih hcs (c :: acc) l]
    simp

theorem splitChars_single (s : List Char) (h : '/' ∉ s) :
    splitChars s = [s] := by
  unfold splitChars
  have h2 := splitCharsAux_append s h [] []
  simp only [List.append_nil] at h2
  rw [h2, splitCharsAux]
  simp

theorem filter_nonempty_cons (s : List Char) (l : List (List Char)) (hs : s ≠ []) :
    (s :: l).filter (fun u => !u.isEmpty) = s :: l.filter (fun u => !u.isEmpty) := by
  simp [List.filter_cons, hs]

theorem segmentsOfChars_join (segs : List (List Char)) :
    (∀ s ∈ segs, s ≠ [] ∧ '/' ∉ s) → segmentsOfChars (joinSegs segs) = segs := by
  induction segs with
  | nil => intro _; rfl
  | cons s rest ih =>
    intro h
    have hs := h s (List.mem_cons_self s rest)
    cases rest with
    | nil =>
      show segmentsOfChars (joinSegs [s]) = [s]
      rw [joinSegs]
      unfold segmentsOfChars
      rw [splitChars_single s hs.2, filter_nonempty_cons s [] hs.1]
      rfl
    | cons t rest' =>
      have hrest : ∀ u ∈ t :: rest', u ≠ [] ∧ '/' ∉ u :=
        fun u hu => h u (List.mem_cons_of_mem s hu)
      have ihr := ih hrest
      have h1 : splitChars (joinSegs (s :: t :: rest'))
          = s :: splitChars (joinSegs (t :: rest')) := by
        unfold splitChars
        rw [joinSegs, splitCharsAux_append s hs.2 [] ('/' :: joinSegs (t :: rest')),
          splitCharsAux]
        simp
      unfold segmentsOfChars at ihr ⊢
      rw [h1, filter_nonempty_cons s _ hs.1, ihr]

theorem segmentsOfChars_cons_sep (l : List Char) :
    segmentsOfChars ('/' :: l) = segmentsOfChars l := by
  unfold segmentsOfChars splitChars
  rw [splitCharsAux]
  simp [List.filter_cons]

/-! ## Supporting lemmas: scheme detection and reassembly -/

theorem schemeTail_eq_some (cs rest : List Char) (h : schemeTail cs = some rest) :
    cs = '/' :: '/' :: rest := by
  match cs with
  | [] => simp [schemeTail] at h
  | [c] => simp [schemeTail] at h
  | c1 :: c2 :: cs' =>
    rw [schemeTail] at h
    by_cases hc : c1 = '/' ∧ c2 = '/'
    · rw [if_pos hc] at h
      rw [hc.1, hc.2, Option.some.inj h]
    · rw [if_neg hc] at h
      exact absurd h (by simp)

theorem schemeSplit_some :
    ∀ (l sch rest : List Char), schemeSplit l = some (sch, rest) →
      ':' ∉ sch ∧ '/' ∉ sch ∧ l = sch ++ ':' :: '/' :: '/' :: rest := by
  intro l
  induction l with
  | nil => intro sch rest h; simp [schemeSplit] at h
  | cons c cs ih =>
    intro sch rest h
    rw [schemeSplit] at h
    by_cases hc : c = ':'
    · rw [if_pos hc] at h
      subst hc
      cases ht : schemeTail cs with
      | none => rw [ht] at h; simp at h
      | some r =>
        rw [ht] at h
        simp only [Option.map_some'] at h
        have hpr := Option.some.inj h
        have h1 : sch = [] := (Prod.mk.injEq _ _ _ _ ▸ hpr).1.symm
        have h2 : r = rest := (Prod.mk.injEq _ _ _ _ ▸ hpr).2
        subst h1
        subst h2
        simp [schemeTail_eq_some cs r ht]
    · rw [if_neg hc] at h
      by_cases hsl : c = '/'
      · rw [if_pos hsl] at h; simp at h
      · rw [if_neg hsl] at h
        cases hsc : schemeSplit cs with
        | none => rw [hsc] at h; simp at h
        | some pr =>
          obtain ⟨sch', rest'⟩ := pr
          rw [hsc] at h
          simp only [Option.map_some'] at h
          have hpr := Option.some.inj h
          have h1 : c :: sch' = sch := (Prod.mk.injEq _ _ _ _ ▸ hpr).1
          have h2 : rest' = rest := (Prod.mk.injEq _ _ _ _ ▸ hpr).2
          obtain ⟨ihc, ihs, ihe⟩ := ih sch' rest' hsc
          subst h1
          subst h2
          refine ⟨?_, ?_, ?_⟩
          · intro hmem
            rcases List.mem_cons.mp hmem with heq | hmem2
            · exact hc heq.symm
            · exact ihc hmem2
          · intro hmem
            rcases List.mem_cons.mp hmem with heq | hmem2
            · exact hsl heq.symm
            · exact ihs hmem2
          · rw [List.cons_append, ← ihe]

theorem schemeSplit_assemble (sch : List Char) :
    ':' ∉ sch → '/' ∉ sch → ∀ rest,
      schemeSplit (sch ++ ':' :: '/' :: '/' :: rest) = some (sch, rest) := by
  induction sch with
  | nil =>
    intro _ _ rest
    rw [List.nil_append, schemeSplit]
    simp [schemeTail]
  | cons c cs ih =>
    intro h1 h2 rest
    have hc : ¬ c = ':' := fun hcc => h1 (by simp [hcc])
    have hs : ¬ c = '/' := fun hcc => h2 (by simp [hcc])
    have h1' : ':' ∉ cs := fun hmem => h1 (List.mem_cons_of_mem c hmem)
    have h2' : '/' ∉ cs := fun hmem => h2 (List.mem_cons_of_mem c hmem)
    rw [List.cons_append, schemeSplit, if_neg hc, if_neg hs, ih h1' h2' rest]
    rfl

theorem schemeOf_some (l sch rest : List Char) (h : schemeOf l = some (sch, rest)) :
    sch ≠ [] ∧ schemeSplit l = some (sch, rest) := by
  unfold schemeOf at h
  cases hsc : schemeSplit l with
  | none => rw [hsc] at h; simp at h
  | some pr =>
    obtain ⟨sch', rest'⟩ := pr
    rw [hsc] at h
    have h' : (if sch' = [] then none else some (sch', rest')) = some (sch, rest) := h
    by_cases hne : sch' = []
    · rw [if_pos hne] at h'; simp at h'
    · rw [if_neg hne] at h'
      have hpr := Option.some.inj h'
      have h1 : sch' = sch := (Prod.mk.injEq _ _ _ _ ▸ hpr).1
      have h2 : rest' = rest := (Prod.mk.injEq _ _ _ _ ▸ hpr).2
      subst h1
      subst h2
      exact ⟨hne, rfl⟩

theorem schemeOf_assemble (sch : List Char) (hne : sch ≠ []) (h1 : ':' ∉ sch)
    (h2 : '/' ∉ sch) (rest : List Char) :
    schemeOf (sch ++ ':' :: '/' :: '/' :: rest) = some (sch, rest) := by
  unfold schemeOf
  rw [schemeSplit_assemble sch h1 h2 rest]
  show (if sch = [] then none else some (sch, rest)) = some (sch, rest)
  rw [if_neg hne]

/-! ## Supporting lemmas: joined sub-paths carry no scheme -/

theorem joinSegs_cons (t : List Char) (rest : List (List Char)) :
    joinSegs (t :: rest) = t ++ (if rest.isEmpty then [] else '/' :: joinSegs rest) := by
  cases rest with
  | nil => simp [joinSegs]
  | cons u rest' => simp [joinSegs]

theorem joinSegs_cons_ne_sep (t : List Char) (rest : List (List Char))
    (h1 : t ≠ []) (h2 : '/' ∉ t) : ∀ u, joinSegs (t :: rest) ≠ '/' :: u := by
  intro u heq
  rw [joinSegs_cons] at heq
  cases t with
  | nil => exact h1 rfl
  | cons c cs =>
    rw [List.cons_append] at heq
    have hc : c = '/' := (List.cons.injEq _ _ _ _ ▸ heq).1
    exact h2 (by simp [hc])

theorem schemeSplit_none_of (s : List Char) :
    '/' ∉ s → ∀ l, (l = [] ∨ ∃ t, l = '/' :: t) → (∀ t, l ≠ '/' :: '/' :: t) →
      schemeSplit (s ++ l) = none := by
  induction s with
  | nil =>
    intro _ l hl hll
    rcases hl with rfl | ⟨t, rfl⟩
    · rfl
    · rw [List.nil_append, schemeSplit]
      simp
  | cons c cs ih =>
    intro hs l hl hll
    have hc : ¬ c = '/' := fun hcc => hs (by simp [hcc])
    have hcs : '/' ∉ cs := fun hmem => hs (List.mem_cons_of_mem c hmem)
    rw [List.cons_append, schemeSplit]
    by_cases hcc : c = ':'
    · rw [if_pos hcc]
      have htail : schemeTail (cs ++ l) = none := by
        cases cs with
        | nil =>
          rw [List.nil_append]
          rcases hl with rfl | ⟨t, rfl⟩
          · rfl
          · cases t with
            | nil => rfl
            | cons d t' =>
              rw [schemeTail]
              have hd : ¬ ('/' = '/' ∧ d = '/') := by
                intro hpair
                exact hll t' (by rw [hpair.2])
              rw [if_neg hd]
        | cons d ds =>
          have hd : ¬ d = '/' := fun hdd => hcs (by simp [hdd])
          cases hds : ds ++ l with
          | nil => rw [List.cons_append, hds]; rfl
          | cons e es =>
            rw [List.cons_append, hds, schemeTail]
            have hpair : ¬ (d = '/' ∧ e = '/') := fun hp => hd hp.1
            rw [if_neg hpair]
      rw [htail]
      rfl
    · rw [if_neg hcc, if_neg hc, ih hcs l hl hll]
      rfl

theorem schemeOf_none_of_split (l : List Char) (h : schemeSplit l = none) :
    schemeOf l = none := by
  unfold schemeOf
  rw [h]

theorem schemeOf_joinComps (b : Bool) (segs : List (List Char))
    (hinv : ∀ s ∈ segs, s ≠ [] ∧ '/' ∉ s) :
    schemeOf (joinComps (b, segs)) = none := by
  apply schemeOf_none_of_split
  cases b with
  | true =>
    show schemeSplit ('/' :: joinSegs segs) = none
    rw [schemeSplit]
    simp
  | false =>
    show schemeSplit ([] ++ joinSegs segs) = none
    rw [List.nil_append]
    cases segs with
    | nil => rfl
    | cons t rest =>
      have ht := hinv t (List.mem_cons_self t rest)
      rw [joinSegs_cons]
      cases hre : rest.isEmpty with
      | true =>
        rw [if_pos rfl]
        have := schemeSplit_none_of t ht.2 [] (Or.inl rfl) (by simp)
        simpa using this
      | false =>
        rw [if_neg (by simp)]
        cases rest with
        | nil => simp at hre
        | cons t2 rest2 =>
          have ht2 := hinv t2 (List.mem_cons_of_mem t (List.mem_cons_self t2 rest2))
          refine schemeSplit_none_of t ht.2 _ (Or.inr ⟨_, rfl⟩) ?_
          intro u heq
          have : joinSegs (t2 :: rest2) = '/' :: u := (List.cons.injEq _ _ _ _ ▸ heq).2
          exact joinSegs_cons_ne_sep t2 rest2 ht2.1 ht2.2 u this

theorem startsWithSep_joinComps (b : Bool) (segs : List (List Char))
    (hinv : ∀ s ∈ segs, s ≠ [] ∧ '/' ∉ s) :
    startsWithSep (joinComps (b, segs)) = b := by
  cases b with
  | true => rfl
  | false =>
    show startsWithSep ([] ++ joinSegs segs) = false
    rw [List.nil_append]
    cases segs with
    | nil => rfl
    | cons t rest =>
      have ht := hinv t (List.mem_cons_self t rest)
      rw [joinSegs_cons]
      cases t with
      | nil => exact absurd rfl ht.1
      | cons c cs =>
        have hc : ¬ c = '/' := fun hcc => ht.2 (by simp [hcc])
        rw [List.cons_append, startsWithSep]
        simp [hc]

theorem segmentsOfChars_joinComps (b : Bool) (segs : List (List Char))
    (hinv : ∀ s ∈ segs, s ≠ [] ∧ '/' ∉ s) :
    segmentsOfChars (joinComps (b, segs)) = segs := by
  cases b with
  | true =>
    show segmentsOfChars ('/' :: joinSegs segs) = segs
    rw [segmentsOfChars_cons_sep]
    exact segmentsOfChars_join segs hinv
  | false =>
    show segmentsOfChars ([] ++ joinSegs segs) = segs
    rw [List.nil_append]
    exact segmentsOfChars_join segs hinv

theorem parseComps_joinComps (l : List Char) :
    parseComps (joinComps (parseComps l)) = parseComps l := by
  have hinv := segmentsOfChars_no_sep l
  unfold parseComps
  rw [startsWithSep_joinComps _ _ hinv, segmentsOfChars_joinComps _ _ hinv]

/-! ## Supporting lemmas: constructor, serialization, equality -/

theorem fromUri_scheme_eq (os : OSFamily) (addr : String) (opts : StorageOptions)
    (sch rest : List Char) (h : schemeOf addr.data = some (sch, rest)) :
    fromUri os addr opts =
      { cls := clsForProtocol (String.mk sch)
        protocol := String.mk sch
        hasRoot := startsWithSep rest
        segs := segmentsOfChars rest
        opts := opts } := by
  unfold fromUri
  rw [h]

theorem fromUri_noscheme_eq (os : OSFamily) (addr : String) (opts : StorageOptions)
    (h : schemeOf addr.data = none) :
    fromUri os addr opts =
      { cls := localCls os
        protocol := "file"
        hasRoot := startsWithSep addr.data
        segs := segmentsOfChars addr.data
        opts := opts } := by
  unfold fromUri
  rw [h]

theorem fromUri_segs_inv (os : OSFamily) (addr : String) (opts : StorageOptions) :
    ∀ s ∈ (fromUri os addr opts).segs, s ≠ [] ∧ '/' ∉ s := by
  cases h : schemeOf addr.data with
  | some pr =>
    obtain ⟨sch, rest⟩ := pr
    rw [fromUri_scheme_eq os addr opts sch rest h]
    exact segmentsOfChars_no_sep rest
  | none =>
    rw [fromUri_noscheme_eq os addr opts h]
    exact segmentsOfChars_no_sep addr.data

theorem clsForProtocol_not_local (s : String) :
    clsForProtocol s ≠ .posixUPath ∧ clsForProtocol s ≠ .windowsUPath := by
  unfold clsForProtocol
  constructor <;> (repeat' split) <;> simp

theorem toUriString_nonlocal (p : PathValue) (h1 : p.cls ≠ .posixUPath)
    (h2 : p.cls ≠ .windowsUPath) :
    toUriString p = p.protocol ++ "://" ++ p.pathString := by
  cases hc : p.cls with
  | posixUPath => exact absurd hc h1
  | windowsUPath => exact absurd hc h2
  | filePath => unfold toUriString; rw [hc]
  | s3Path => unfold toUriString; rw [hc]
  | httpPath => unfold toUriString; rw [hc]
  | memoryPath => unfold toUriString; rw [hc]
  | genericUPath => unfold toUriString; rw [hc]

theorem toUriString_local (p : PathValue)
    (h : p.cls = .posixUPath ∨ p.cls = .windowsUPath) :
    toUriString p = p.pathString := by
  rcases h with hc | hc <;> (unfold toUriString; rw [hc])

theorem PathValue.eq_of_components (p q : PathValue) (h1 : p.protocol = q.protocol)
    (h2 : p.hasRoot = q.hasRoot) (h3 : p.segs = q.segs) (h4 : p.opts = q.opts) :
    PathValue.eq p q = true := by
  unfold PathValue.eq PathValue.sameFs PathValue.fsid
  rw [h1, h2, h3, h4]
  cases hf : fsidOf q.protocol q.opts <;> simp [hf]

theorem reparse_eq_self (os : OSFamily) (addr : String) (opts : StorageOptions) :
    PathValue.eq (fromUri os (toUriString (fromUri os addr opts)) opts)
      (fromUri os addr opts) = true := by
  have hinv := fromUri_segs_inv os addr opts
  cases h : schemeOf addr.data with
  | some pr =>
    obtain ⟨sch, rest⟩ := pr
    have hf := fromUri_scheme_eq os addr opts sch rest h
    have hsch := schemeOf_some addr.data sch rest h
    obtain ⟨hc1, hc2, _⟩ := schemeSplit_some addr.data sch rest hsch.2
    have hclsne := clsForProtocol_not_local (String.mk sch)
    have hser : toUriString (fromUri os addr opts)
        = String.mk sch ++ "://" ++ (fromUri os addr opts).pathString := by
      rw [toUriString_nonlocal _ (by rw [hf]; exact hclsne.1) (by rw [hf]; exact hclsne.2)]
      rw [hf]
    have hdata : (toUriString (fromUri os addr opts)).data
        = sch ++ ':' :: '/' :: '/' :: joinComps ((fromUri os addr opts).hasRoot,
            (fromUri os addr opts).segs) := by
      rw [hser]
      have hstep : (String.mk sch ++ "://" ++ (fromUri os addr opts).pathString).data
          = (sch ++ [':', '/', '/']) ++ joinComps ((fromUri os addr opts).hasRoot,
              (fromUri os addr opts).segs) := rfl
      rw [hstep, List.append_assoc]
      rfl
    have hre : schemeOf (toUriString (fromUri os addr opts)).data
        = some (sch, joinComps ((fromUri os addr opts).hasRoot, (fromUri os addr opts).segs)) := by
      rw [hdata]
      exact schemeOf_assemble sch hsch.1 hc1 hc2 _
    rw [fromUri_scheme_eq os _ opts _ _ hre]
    apply PathValue.eq_of_components
    · rw [hf]
    · rw [startsWithSep_joinComps _ _ hinv]
    · rw [segmentsOfChars_joinComps _ _ hinv]
    · rw [hf]
  | none =>
    have hf := fromUri_noscheme_eq os addr opts h
    have hser : toUriString (fromUri os addr opts) = (fromUri os addr opts).pathString := by
      apply toUriString_local
      rw [hf]
      cases os with
      | posix => exact Or.inl rfl
      | windows => exact Or.inr rfl
    have hre : schemeOf (toUriString (fromUri os addr opts)).data = none := by
      rw [hser]
      exact schemeOf_joinComps _ _ hinv
    rw [fromUri_noscheme_eq os _ opts hre]
    apply PathValue.eq_of_components
    · rw [hf]
    · rw [hser]
      show startsWithSep (joinComps ((fromUri os addr opts).hasRoot,
        (fromUri os addr opts).segs)) = _
      rw [startsWithSep_joinComps _ _ hinv]
    · rw [hser]
      show segmentsOfChars (joinComps ((fromUri os addr opts).hasRoot,
        (fromUri os addr opts).segs)) = _
      rw [segmentsOfChars_joinComps _ _ hinv]
    · rw [hf]

/-! ## Supporting lemmas: name, stem, suffix -/

theorem string_mk_append (a b : List Char) :
    String.mk a ++ String.mk b = String.mk (a ++ b) := rfl

theorem stem_append_suffix (p : PathValue) : p.stem ++ p.suffix = p.name := by
  unfold PathValue.stem PathValue.suffix PathValue.name
  rw [string_mk_append, List.take_append_drop]

theorem lastDot_spec (l : List Char) (i : Nat) (h : lastDot l = some i) :
    i < l.length ∧ l.get? i = some '.' := by
  unfold lastDot at h
  have hmem : i ∈ dotIdxs l := List.mem_of_mem_getLast? h
  unfold dotIdxs at hmem
  have h2 := List.mem_filter.mp hmem
  exact ⟨List.mem_range.mp h2.1, of_decide_eq_true h2.2⟩

theorem head_drop_get (l : List Char) (n : Nat) :
    (l.drop n).head? = l.get? n := by
  rw [List.get?_eq_getElem?, List.head?_eq_getElem?, List.getElem?_drop]
  simp

theorem cutIdx_some (l : List Char) (i : Nat) (h : lastDot l = some i) :
    cutIdx l = if 0 < i then i else l.length := by
  unfold cutIdx
  rw [h]

theorem cutIdx_none (l : List Char) (h : lastDot l = none) :
    cutIdx l = l.length := by
  unfold cutIdx
  rw [h]

theorem suffix_empty_or_dot (p : PathValue) :
    p.suffix = "" ∨ p.suffix.data.head? = some '.' := by
  have hcut : p.suffix = String.mk (p.lastSegChars.drop (cutIdx p.lastSegChars)) := rfl
  cases h : lastDot p.lastSegChars with
  | none =>
    left
    rw [hcut, cutIdx_none _ h, List.drop_length]
  | some i =>
    by_cases hi : 0 < i
    · right
      rw [hcut, cutIdx_some _ i h, if_pos hi]
      obtain ⟨hlen, hget⟩ := lastDot_spec _ i h
      show (p.lastSegChars.drop i).head? = some '.'
      rw [head_drop_get, hget]
    · left
      rw [hcut, cutIdx_some _ i h, if_neg hi, List.drop_length]

theorem dotIdxs_dotfile (t : List Char) (h : '.' ∉ t) : dotIdxs ('.' :: t) = [0] := by
  unfold dotIdxs
  have hr : ('.' :: t).length = t.length + 1 := rfl
  rw [hr, List.range_succ_eq_map t.length]
  have hnil : ((List.range t.length).map Nat.succ).filter
      (fun i => decide (('.' :: t).get? i = some '.')) = [] := by
    rw [List.filter_eq_nil_iff]
    intro a ha
    obtain ⟨i, _, rfl⟩ := List.mem_map.mp ha
    intro hdec
    have hget := of_decide_eq_true hdec
    rw [List.get?_cons_succ] at hget
    exact h (List.get?_mem hget)
  rw [List.filter_cons, hnil]
  simp

theorem suffix_dotfile (p : PathValue) (t : List Char)
    (h1 : p.lastSegChars = '.' :: t) (h2 : '.' ∉ t) : p.suffix = "" := by
  have hld : lastDot p.lastSegChars = some 0 := by
    unfold lastDot
    rw [h1, dotIdxs_dotfile t h2]
    rfl
  have hcut : p.suffix = String.mk (p.lastSegChars.drop (cutIdx p.lastSegChars)) := rfl
  rw [hcut, cutIdx_some _ 0 hld, if_neg (by decide), List.drop_length]

theorem final_segment_only (p q : PathValue) (h : p.lastSegChars = q.lastSegChars) :
    p.name = q.name ∧ p.stem = q.stem ∧ p.suffix = q.suffix := by
  unfold PathValue.name PathValue.stem PathValue.suffix
  rw [h]
  exact ⟨rfl, rfl, rfl⟩

/-! ## Supporting lemmas: identity, equality and hashing -/

theorem fsidOf_congr (pr : String) (o1 o2 : StorageOptions)
    (h : canonOpts o1 = canonOpts o2) : fsidOf pr o1 = fsidOf pr o2 := by
  unfold fsidOf s3Endpoint optGet
  rw [h]

theorem eq_components (p q : PathValue) (h : PathValue.eq p q = true) :
    p.protocol = q.protocol ∧ p.hasRoot = q.hasRoot ∧ p.segs = q.segs ∧
      PathValue.sameFs p q = true := by
  unfold PathValue.eq at h
  simp only [Bool.and_eq_true, beq_iff_eq] at h
  exact ⟨h.1.1.1, h.1.1.2, h.1.2, h.2⟩

theorem pathString_congr (p q : PathValue) (h1 : p.hasRoot = q.hasRoot)
    (h2 : p.segs = q.segs) : p.pathString = q.pathString := by
  unfold PathValue.pathString PathValue.pathChars
  rw [h1, h2]

/-! ## Supporting lemmas: joins and relative paths -/

theorem joinSegment_mismatch (p : PathValue) (seg : String) (sch rest : List Char)
    (h : schemeOf seg.data = some (sch, rest)) (hne : String.mk sch ≠ p.protocol) :
    p.joinSegment seg = .error .protocolMismatch := by
  unfold PathValue.joinSegment
  rw [h]
  show (if String.mk sch = p.protocol then _ else Except.error UPathError.protocolMismatch) = _
  rw [if_neg hne]

theorem joinSegment_bare (p : PathValue) (seg : String)
    (h : schemeOf seg.data = none) :
    p.joinSegment seg = .ok { p with segs := p.segs ++ segmentsOfChars seg.data } := by
  unfold PathValue.joinSegment
  rw [h]

theorem sameFs_false_of_fsid_ne (c b : PathValue) (tA tB : String)
    (h1 : c.fsid = some tA) (h2 : b.fsid = some tB) (hne : tA ≠ tB) :
    PathValue.sameFs c b = false := by
  unfold PathValue.sameFs
  rw [h1, h2]
  show (tA == tB) = false
  exact beq_eq_false_iff_ne.mpr hne

theorem relative_to_rejects_fsid_mismatch (c b : PathValue) (tA tB : String)
    (h1 : c.fsid = some tA) (h2 : b.fsid = some tB) (hne : tA ≠ tB) :
    isOkE (c.relative_to b) = false ∧ c.is_relative_to b = false := by
  have hfs := sameFs_false_of_fsid_ne c b tA tB h1 h2 hne
  have hrel : c.relative_to b = .error .protocolMismatch ∨
      c.relative_to b = .error .incompatibleFilesystems := by
    unfold PathValue.relative_to
    by_cases hp : c.protocol ≠ b.protocol
    · rw [if_pos hp]
      exact Or.inl rfl
    · rw [if_neg hp, if_pos hfs]
      exact Or.inr rfl
  unfold PathValue.is_relative_to
  rcases hrel with h | h <;> rw [h] <;> exact ⟨rfl, rfl⟩

/-! ## Claims -/

/-- C1: Equality of two path values holds iff they have the same outermost
protocol name, the same normalized sub-path (root marker and segments),
and either both filesystem-identity tokens are defined and equal, or at
least one identity is undefined and their full (canonicalized) storage
options are equal.  In particular, two `memory` paths with the same
address but different arbitrary options are unequal. -/
theorem upath_eq_iff_identity :
    (∀ p q : PathValue, PathValue.eq p q = true ↔
      (p.protocol = q.protocol ∧ p.hasRoot = q.hasRoot ∧ p.segs = q.segs ∧
        ((∃ t, p.fsid = some t ∧ q.fsid = some t) ∨
         ((p.fsid = none ∨ q.fsid = none) ∧ canonOpts p.opts = canonOpts q.opts)))) ∧
    PathValue.eq (fromUri .posix "memory:///file.txt" [("opt", "1")])
      (fromUri .posix "memory:///file.txt" [("opt", "2")]) = false := by
  constructor
  · intro p q
    unfold PathValue.eq PathValue.sameFs
    cases h1 : p.fsid <;> cases h2 : q.fsid <;>
      (simp [Bool.and_eq_true, beq_iff_eq, h1, h2, and_assoc]; try tauto)
  · decide

/-- C1 witness: the equality characterization evaluated at two concrete
equal `s3` paths that differ only in an `anon` option. -/
theorem upath_eq_iff_identity_witness :
    ((fromUri .posix "s3://bucket/f" [("anon", "true")]).protocol
        = (fromUri .posix "s3://bucket/f" []).protocol ∧
      (fromUri .posix "s3://bucket/f" [("anon", "true")]).hasRoot
        = (fromUri .posix "s3://bucket/f" []).hasRoot ∧
      (fromUri .posix "s3://bucket/f" [("anon", "true")]).segs
        = (fromUri .posix "s3://bucket/f" []).segs ∧
      ((∃ t, (fromUri .posix "s3://bucket/f" [("anon", "true")]).fsid = some t ∧
          (fromUri .posix "s3://bucket/f" []).fsid = some t) ∨
        (((fromUri .posix "s3://bucket/f" [("anon", "true")]).fsid = none ∨
            (fromUri .posix "s3://bucket/f" []).fsid = none) ∧
          canonOpts (fromUri .posix "s3://bucket/f" [("anon", "true")]).opts
            = canonOpts (fromUri .posix "s3://bucket/f" []).opts))) :=
  (upath_eq_iff_identity.1 _ _).mp (by decide)

/-- C2: the filesystem-identity token is computed per protocol family
exactly as the identity table prescribes: constant `"local"` for local
filesystems, constant `"http"` for HTTP(S), the normalized endpoint URL
(configured or AWS default, trailing-slash normalized) for S3-like
stores, the constant `"gcs"` for the single-global-endpoint GCS store,
the account identifier for the account-scoped Azure store, host plus
port for host-addressed remotes, and undefined for unknown protocols. -/
theorem fsid_identity_table :
    (∀ o : StorageOptions, fsidOf "file" o = some "local" ∧ fsidOf "local" o = some "local") ∧
    (∀ o : StorageOptions, fsidOf "http" o = some "http" ∧ fsidOf "https" o = some "http") ∧
    (∀ (o : StorageOptions) (e : String), optGet "endpoint_url" o = some e →
      fsidOf "s3" o = some (stripTrailingSlash e)) ∧
    (∀ o : StorageOptions, optGet "endpoint_url" o = none →
      fsidOf "s3" o = some (stripTrailingSlash "https://s3.amazonaws.com")) ∧
    (fsidOf "s3" [("endpoint_url", "http://localhost:9000/")]
      = fsidOf "s3" [("endpoint_url", "http://localhost:9000")]) ∧
    (∀ o : StorageOptions, fsidOf "gs" o = some "gcs" ∧ fsidOf "gcs" o = some "gcs") ∧
    (∀ (o : StorageOptions) (a : String), optGet "account_name" o = some a →
      fsidOf "az" o = some ("az://" ++ a)) ∧
    (∀ (o : StorageOptions) (hst prt : String),
      optGet "host" o = some hst → optGet "port" o = some prt →
      fsidOf "sftp" o = some (hst ++ ":" ++ prt) ∧ fsidOf "smb" o = some (hst ++ ":" ++ prt)) ∧
    (∀ o : StorageOptions, fsidOf "memory" o = none ∧ fsidOf "github" o = none) := by
  refine ⟨fun o => ⟨by simp [fsidOf], by simp [fsidOf]⟩,
    fun o => ⟨by simp [fsidOf], by simp [fsidOf]⟩,
    fun o e h => by simp [fsidOf, s3Endpoint, h],
    fun o h => by simp [fsidOf, s3Endpoint, h],
    by decide,
    fun o => ⟨by simp [fsidOf], by simp [fsidOf]⟩,
    fun o a h => by simp [fsidOf, h],
    fun o hst prt h1 h2 => ⟨by simp [fsidOf, h1, h2], by simp [fsidOf, h1, h2]⟩,
    fun o => ⟨by simp [fsidOf], by simp [fsidOf]⟩⟩

/-- C2 witness: the identity table evaluated at concrete option
mappings for the endpoint-, account- and host-derived rows. -/
theorem fsid_identity_table_witness :
    (optGet "endpoint_url" [("endpoint_url", "http://localhost:9000")]
        = some "http://localhost:9000" ∧
      fsidOf "s3" [("endpoint_url", "http://localhost:9000")]
        = some (stripTrailingSlash "http://localhost:9000")) ∧
    (optGet "account_name" [("account_name", "acct")] = some "acct" ∧
      fsidOf "az" [("account_name", "acct")] = some ("az://" ++ "acct")) ∧
    (optGet "host" [("host", "h"), ("port", "2022")] = some "h" ∧
      optGet "port" [("host", "h"), ("port", "2022")] = some "2022" ∧
      fsidOf "sftp" [("host", "h"), ("port", "2022")] = some ("h" ++ ":" ++ "2022")) :=
  ⟨⟨by decide, fsid_identity_table.2.2.1 _ _ (by decide)⟩,
   ⟨by decide, fsid_identity_table.2.2.2.2.2.2.1 _ _ (by decide)⟩,
   ⟨by decide, by decide,
     (fsid_identity_table.2.2.2.2.2.2.2.1 _ "h" "2022" (by decide) (by decide)).1⟩⟩

/-- C3: for a protocol with a defined identity rule, two paths with
identical protocol and address are equal whenever their storage options
yield the same identity token (so options outside the identity-relevant
subset, such as `anon`, `key`, `token`, `block_size`, `auto_mkdir`, are
ignored), and become unequal whenever the identity tokens differ (e.g.
a differing S3 `endpoint_url`). -/
theorem eq_identity_relevant_options :
    (∀ (p : PathValue) (oA oB : StorageOptions) (t : String),
      fsidOf p.protocol oA = some t → fsidOf p.protocol oB = some t →
      PathValue.eq { p with opts := oA } { p with opts := oB } = true) ∧
    (∀ (p : PathValue) (oA oB : StorageOptions) (tA tB : String),
      fsidOf p.protocol oA = some tA → fsidOf p.protocol oB = some tB → tA ≠ tB →
      PathValue.eq { p with opts := oA } { p with opts := oB } = false) ∧
    (PathValue.eq
      (fromUri .posix "s3://bucket/key" [("anon", "true"), ("key", "k"),
        ("token", "t"), ("block_size", "5"), ("auto_mkdir", "1")])
      (fromUri .posix "s3://bucket/key" []) = true) ∧
    (PathValue.eq
      (fromUri .posix "s3://bucket/key" [("endpoint_url", "http://localhost:9000")])
      (fromUri .posix "s3://bucket/key" []) = false) := by
  refine ⟨?_, ?_, by decide, by decide⟩
  · intro p oA oB t hA hB
    simp [PathValue.eq, PathValue.sameFs, PathValue.fsid, hA, hB]
  · intro p oA oB tA tB hA hB hne
    simp [PathValue.eq, PathValue.sameFs, PathValue.fsid, hA, hB, hne]

/-- C3 witness: the identity-option laws evaluated at concrete `s3`
option mappings — equal identity with differing `anon`, unequal identity
with differing endpoints. -/
theorem eq_identity_relevant_options_witness :
    (PathValue.eq
      { fromUri .posix "s3://b/k" [] with opts := [("anon", "true")] }
      { fromUri .posix "s3://b/k" [] with opts := [] } = true) ∧
    (PathValue.eq
      { fromUri .posix "s3://b/k" [] with opts := [("endpoint_url", "http://localhost:9000")] }
      { fromUri .posix "s3://b/k" [] with opts := [] } = false) :=
  ⟨eq_identity_relevant_options.1 _ _ _ (stripTrailingSlash "https://s3.amazonaws.com")
      (by decide) (by decide),
   eq_identity_relevant_options.2.1 _ _ _ (stripTrailingSlash "http://localhost:9000")
      (stripTrailingSlash "https://s3.amazonaws.com") (by decide) (by decide) (by decide)⟩

/-- C4: `relative_to` and `is_relative_to` succeed across same-protocol
paths whose filesystem identities agree, regardless of differing
identity-irrelevant storage options — the `s3` scenario yields
`"file.txt"` — while paths whose defined identities differ (e.g. a
differing `endpoint_url`) are rejected with an error. -/
theorem relative_to_identity :
    ((fromUri .posix "s3://bucket/dir/file.txt" [("anon", "true")]).relative_to
      (fromUri .posix "s3://bucket/dir" []) = .ok "file.txt") ∧
    ((fromUri .posix "s3://bucket/dir/file.txt" [("anon", "true")]).is_relative_to
      (fromUri .posix "s3://bucket/dir" []) = true) ∧
    (∀ (c b : PathValue) (tA tB : String),
      c.fsid = some tA → b.fsid = some tB → tA ≠ tB →
      isOkE (c.relative_to b) = false ∧ c.is_relative_to b = false) ∧
    ((fromUri .posix "s3://bucket/dir/file.txt" [("anon", "true")]).is_relative_to
      (fromUri .posix "s3://bucket/dir" [("endpoint_url", "http://localhost:9000")])
      = false) :=
  ⟨by decide, by decide, relative_to_rejects_fsid_mismatch, by decide⟩

/-- C4 witness: the identity-mismatch rejection evaluated at two
concrete `s3` paths with different endpoints. -/
theorem relative_to_identity_witness :
    isOkE ((fromUri .posix "s3://bucket/dir/file.txt" []).relative_to
      (fromUri .posix "s3://bucket/dir" [("endpoint_url", "http://localhost:9000")]))
      = false ∧
    (fromUri .posix "s3://bucket/dir/file.txt" []).is_relative_to
      (fromUri .posix "s3://bucket/dir" [("endpoint_url", "http://localhost:9000")])
      = false :=
  relative_to_identity.2.2.1 _ _
    (stripTrailingSlash "https://s3.amazonaws.com")
    (stripTrailingSlash "http://localhost:9000")
    (by decide) (by decide) (by decide)

/-- C5: hashing is consistent with equality — the hash key is computed
from protocol plus normalized sub-path plus the identity token when the
identity is defined, and from protocol plus normalized sub-path plus
canonicalized storage options when it is undefined, so equal paths have
equal hash keys. -/
theorem hash_consistent_with_eq :
    ∀ p q : PathValue, PathValue.eq p q = true →
      PathValue.hashKey p = PathValue.hashKey q := by
  intro p q h
  obtain ⟨h1, h2, h3, hfs⟩ := eq_components p q h
  have hps := pathString_congr p q h2 h3
  have hff1 : p.fsid = fsidOf p.protocol p.opts := rfl
  have hff2 : q.fsid = fsidOf q.protocol q.opts := rfl
  unfold PathValue.sameFs at hfs
  unfold PathValue.hashKey
  cases hf1 : p.fsid with
  | none =>
    rw [hf1] at hfs
    cases hf2 : q.fsid with
    | none =>
      rw [hf2] at hfs
      have hcanon : canonOpts p.opts = canonOpts q.opts := beq_iff_eq.mp hfs
      rw [h1, hps, hcanon]
    | some y =>
      rw [hf2] at hfs
      have hcanon : canonOpts p.opts = canonOpts q.opts := beq_iff_eq.mp hfs
      exfalso
      have hsame : p.fsid = q.fsid := by
        rw [hff1, hff2, h1]
        exact fsidOf_congr q.protocol p.opts q.opts hcanon
      rw [hf1, hf2] at hsame
      exact Option.noConfusion hsame
  | some x =>
    cases hf2 : q.fsid with
    | none =>
      rw [hf1, hf2] at hfs
      have hcanon : canonOpts p.opts = canonOpts q.opts := beq_iff_eq.mp hfs
      exfalso
      have hsame : p.fsid = q.fsid := by
        rw [hff1, hff2, h1]
        exact fsidOf_congr q.protocol p.opts q.opts hcanon
      rw [hf1, hf2] at hsame
      exact Option.noConfusion hsame
    | some y =>
      rw [hf1, hf2] at hfs
      have hxy : x = y := beq_iff_eq.mp hfs
      rw [h1, hps, hxy]

/-- C5 witness: hash consistency evaluated at two concrete equal `s3`
paths that differ only in an `anon` option. -/
theorem hash_consistent_with_eq_witness :
    PathValue.eq (fromUri .posix "s3://bucket/f" [("anon", "true")])
      (fromUri .posix "s3://bucket/f" []) = true ∧
    PathValue.hashKey (fromUri .posix "s3://bucket/f" [("anon", "true")])
      = PathValue.hashKey (fromUri .posix "s3://bucket/f" []) :=
  ⟨by decide, hash_consistent_with_eq _ _ (by decide)⟩

/-- C6: round-trip — re-parsing the canonical string of any constructed
path value with the same storage options yields an equal path value, and
at the flavour level, joining the parsed components of any address
re-parses to the same components (idempotent normalization). -/
theorem canonical_roundtrip :
    (∀ (os : OSFamily) (addr : String) (opts : StorageOptions),
      PathValue.eq (fromUri os (toUriString (fromUri os addr opts)) opts)
        (fromUri os addr opts) = true) ∧
    (∀ l : List Char, parseComps (joinComps (parseComps l)) = parseComps l) :=
  ⟨reparse_eq_self, parseComps_joinComps⟩

/-- C7: joining a segment that carries an explicit scheme for a different
protocol fails with `ProtocolMismatch`; a bare relative segment (no
scheme) always joins successfully; in particular joining an
`s3://bucket/a` path with an explicit `gs://`-scheme segment is rejected
rather than coerced. -/
theorem join_protocol_mismatch :
    (∀ (p : PathValue) (seg : String) (sch rest : List Char),
      schemeOf seg.data = some (sch, rest) → String.mk sch ≠ p.protocol →
      p.joinSegment seg = .error .protocolMismatch) ∧
    (∀ (p : PathValue) (seg : String), schemeOf seg.data = none →
      isOkE (p.joinSegment seg) = true) ∧
    ((fromUri .posix "s3://bucket/a" []).joinSegment "gs://other/b"
      = .error .protocolMismatch) :=
  ⟨joinSegment_mismatch,
   fun p seg h => by rw [joinSegment_bare p seg h]; rfl,
   by decide⟩

/-- C7 witness: the mismatch law evaluated at a concrete `s3` path and a
concrete `gs://` segment. -/
theorem join_protocol_mismatch_witness :
    (fromUri .posix "s3://bucket/a" []).joinSegment "gs://x"
      = .error .protocolMismatch :=
  join_protocol_mismatch.1 _ "gs://x" "gs".data "x".data (by decide) (by decide)

/-- C8: name, stem and suffix are extracted only from the final segment,
with the stem/suffix split at the last dot that is not the first
character of the segment, so `stem ++ suffix = name`, a suffix is empty
or starts with a dot, dot-files have an empty suffix, and the
`/a/b / "c.txt"` scenario yields name `"c.txt"`, stem `"c"`, suffix
`".txt"` and parent `/a/b`; a multi-dot segment splits at its last dot. -/
theorem name_stem_suffix_final_segment :
    (∀ p q : PathValue, p.lastSegChars = q.lastSegChars →
      p.name = q.name ∧ p.stem = q.stem ∧ p.suffix = q.suffix) ∧
    (∀ p : PathValue, p.stem ++ p.suffix = p.name) ∧
    (∀ p : PathValue, p.suffix = "" ∨ p.suffix.data.head? = some '.') ∧
    (∀ (p : PathValue) (t : List Char), p.lastSegChars = '.' :: t → '.' ∉ t →
      p.suffix = "") ∧
    ((fromUri .posix "/a/b" []).joinSegment "c.txt"
      = .ok (fromUri .posix "/a/b/c.txt" [])) ∧
    ((fromUri .posix "/a/b/c.txt" []).name = "c.txt" ∧
      (fromUri .posix "/a/b/c.txt" []).stem = "c" ∧
      (fromUri .posix "/a/b/c.txt" []).suffix = ".txt") ∧
    (PathValue.eq (fromUri .posix "/a/b/c.txt" []).parent
      (fromUri .posix "/a/b" []) = true) ∧
    ((fromUri .posix "s3://bucket/archive.tar.gz" []).suffix = ".gz") :=
  ⟨final_segment_only, stem_append_suffix, suffix_empty_or_dot, suffix_dotfile,
   by decide, ⟨by decide, by decide, by decide⟩, by decide, by decide⟩

/-- C8 witness: the dot-file rule evaluated at a concrete `.gitignore`
path. -/
theorem name_stem_suffix_final_segment_witness :
    (fromUri .posix "/x/.gitignore" []).lastSegChars = '.' :: "gitignore".data ∧
    (fromUri .posix "/x/.gitignore" []).suffix = "" :=
  ⟨by decide,
   name_stem_suffix_final_segment.2.2.2.1 _ "gitignore".data (by decide) (by decide)⟩

/-- C9: an address string carrying no URI scheme resolves to the local
protocol and the constructor dispatches to the platform-specific local
path class — POSIX-like on Unix, Windows-like on Windows — rather than a
scheme-addressed backend class. -/
theorem no_scheme_local_dispatch :
    ∀ (addr : String) (opts : StorageOptions), schemeOf addr.data = none →
      (fromUri .posix addr opts).cls = .posixUPath ∧
      (fromUri .windows addr opts).cls = .windowsUPath ∧
      (fromUri .posix addr opts).protocol = "file" ∧
      (fromUri .windows addr opts).protocol = "file" := by
  intro addr opts h
  rw [fromUri_noscheme_eq .posix addr opts h, fromUri_noscheme_eq .windows addr opts h]
  exact ⟨rfl, rfl, rfl, rfl⟩

/-- C9 witness: local dispatch evaluated at a concrete scheme-less
address. -/
theorem no_scheme_local_dispatch_witness :
    schemeOf ("/home/user/file.txt" : String).data = none ∧
    (fromUri .posix "/home/user/file.txt" []).cls = .posixUPath ∧
    (fromUri .windows "/home/user/file.txt" []).cls = .windowsUPath :=
  ⟨by decide,
   (no_scheme_local_dispatch "/home/user/file.txt" [] (by decide)).1,
   (no_scheme_local_dispatch "/home/user/file.txt" [] (by decide)).2.1⟩

/-- C10: only the local path classes (`PosixUPath`, `WindowsUPath` and
`FilePath`) implement the `os.PathLike` protocol; every non-local path
(e.g. a `memory://` or `s3://` path) is not `os.PathLike`, and applying
`os.fspath` to it raises `TypeError` instead of degrading to its string
form. -/
theorem os_pathlike_local_only :
    implementsOsPathLike .posixUPath = true ∧
    implementsOsPathLike .windowsUPath = true ∧
    implementsOsPathLike .filePath = true ∧
    implementsOsPathLike .s3Path = false ∧
    implementsOsPathLike .httpPath = false ∧
    implementsOsPathLike .memoryPath = false ∧
    implementsOsPathLike .genericUPath = false ∧
    (os_fspath (fromUri .posix "memory:///file.txt" []) = .error .typeErrorNotPathLike) ∧
    (os_fspath (fromUri .posix "s3://bucket/file.txt" []) = .error .typeErrorNotPathLike) ∧
    (isOkE (os_fspath (fromUri .posix "/home/user/file.txt" [])) = true) ∧
    (isOkE (os_fspath (fromUri .posix "file:///home/user/file.txt" [])) = true) ∧
    (∀ p : PathValue, isOkE (os_fspath p) = implementsOsPathLike p.cls) := by
  refine ⟨rfl, rfl, rfl, rfl, rfl, rfl, rfl, by decide, by decide, by decide, by decide, ?_⟩
  intro p
  unfold os_fspath
  by_cases h : implementsOsPathLike p.cls = true
  · rw [if_pos h, h]
    rfl
  · rw [if_neg h]
    rw [Bool.eq_false_iff.mpr h]
    rfl

end UPathModel
